import Mathlib

/-!
Verification of the boa ECMAScript engine core against its specification.

This file gives a shallow embedding, in Lean, of the parts of the engine
that the checked properties talk about:

* the tagged value model and its equality operations
  (`src/core/engine/src/value/equality.rs`, `src/core/engine/src/value/type.rs`);
* `JsBigInt::pow` (`src/core/engine/src/bigint.rs`);
* the ordinary object internal methods `ordinary_set_prototype_of` and
  `ordinary_set` together with `validate_and_apply_property_descriptor`
  (`src/core/engine/src/object/internal_methods/mod.rs`);
* `RegExp::abstract_builtin_exec`'s `lastIndex` handling
  (`src/core/engine/src/builtins/regexp/mod.rs`);
* the bytecode emitted by `ByteCompiler::compile_try` for `try`/`finally`
  (`src/core/engine/src/bytecompiler/statement/try.rs`);
* `WeakRef::constructor` / `WeakRef::deref` and the `kept_alive` list
  (`src/core/engine/src/builtins/weak/weak_ref.rs`);
* `MultiLineComment::lex` (`src/core/parser/src/lexer/comment.rs`);
* the operand-width variants of the `PushDeclarativeEnvironment` opcode
  (`src/boa_engine/src/vm/opcode/push/environment.rs`).

Machine integers are modelled as `Nat`/`Int`; IEEE-754 doubles are modelled
by an explicit datatype `F64` that distinguishes `NaN`, the two infinities,
the two zeros, and finite values (as rationals); the modelled operations
only ever use doubles in regimes where rounding cannot occur, which the
individual doc comments justify.
-/

namespace Boa

/-! ## The doubled-precision value model

`F64` models the observable structure of an `f64` as used by the equality
operations: `NaN`, the infinities, negative zero, and other values (finite
values are carried as rationals; `finite 0` is positive zero).
-/

/-- Model of an IEEE-754 double. `finite 0` is `+0.0`; `negZero` is `-0.0`. -/
inductive F64 where
  | nan : F64
  | posInf : F64
  | negInf : F64
  | negZero : F64
  | finite (q : ℚ) : F64
deriving DecidableEq

namespace F64

/-- Modelled from the spec: the conversion `f64::from(i32)` is exact because
every `i32` is exactly representable as a double; `0i32` converts to `+0.0`. -/
def ofInt (n : ℤ) : F64 := .finite n

end F64

namespace Number

/-!
Model of the `boa_engine::builtins::Number` equality helpers. The function
`Number::equal` itself is not under `src/` (only its tests are), so it is
modelled from the spec: IEEE-754 `==`, which the spec requires to "treat
`-0 == +0`, `NaN != NaN`"; the tests in
`src/core/engine/src/builtins/number/tests.rs` confirm exactly this.
-/

/-- Modelled from the spec: IEEE-754 `==` on doubles (`Number::equal`):
`NaN` is not equal to anything, `-0.0 == +0.0`, and otherwise values are
compared by their mathematical value. -/
def equal : F64 → F64 → Bool
  | .nan, _ => false
  | _, .nan => false
  | .posInf, .posInf => true
  | .negInf, .negInf => true
  | .negZero, .negZero => true
  | .negZero, .finite q => q = 0
  | .finite q, .negZero => q = 0
  | .finite p, .finite q => p = q
  | _, _ => false

/-- Modelled from the spec: `Number::same_value` (the `SameValue` algorithm on
doubles): `NaN` equals `NaN`, `-0.0` differs from `+0.0`, and otherwise
values are compared by their mathematical value; the tests in
`src/core/engine/src/builtins/number/tests.rs` confirm the zero cases. -/
def sameValue : F64 → F64 → Bool
  | .nan, .nan => true
  | .posInf, .posInf => true
  | .negInf, .negInf => true
  | .negZero, .negZero => true
  | .finite p, .finite q => p = q
  | _, _ => false

end Number

/-- Model of `JsVariant` (`src/core/engine/src/value/mod.rs` surface as used
by `equality.rs` and `type.rs`): the tagged union of ECMAScript values.
Strings and symbols are carried as interned identifiers (equality on the
identifier models the engine's content/identity equality); objects are
carried as heap identifiers. -/
inductive Value where
  | undefined : Value
  | null : Value
  | boolean (b : Bool) : Value
  | integer32 (n : ℤ) : Value
  | float64 (f : F64) : Value
  | string (s : ℕ) : Value
  | bigint (z : ℤ) : Value
  | symbol (s : ℕ) : Value
  | object (id : ℕ) : Value
deriving DecidableEq

/-- Model of the `Type` enum from `src/core/engine/src/value/type.rs`. -/
inductive JsType where
  | undefined | null | boolean | number | string | symbol | bigint | object
deriving DecidableEq

namespace Value

/-- Model of `JsValue::get_type` (`src/core/engine/src/value/type.rs`):
both `Float64` and `Integer32` map to the `Number` type. -/
def get_type : Value → JsType
  | .float64 _ => .number
  | .integer32 _ => .number
  | .string _ => .string
  | .boolean _ => .boolean
  | .symbol _ => .symbol
  | .null => .null
  | .undefined => .undefined
  | .bigint _ => .bigint
  | .object _ => .object

/-- Model of `JsBigInt::equal` (`src/core/engine/src/bigint.rs`): structural
equality of the underlying arbitrary-precision integers. -/
def bigIntEqual (x y : ℤ) : Bool := x = y

/-- Model of `JsValue::same_value_non_numeric`
(`src/core/engine/src/value/equality.rs`). -/
def same_value_non_numeric (x y : Value) : Bool :=
  match x, y with
  | .null, .null => true
  | .undefined, .undefined => true
  | .string a, .string b => a = b
  | .boolean a, .boolean b => a = b
  | .object a, .object b => a = b
  | .symbol a, .symbol b => a = b
  | _, _ => false

/-- Model of `JsValue::strict_equals` (`src/core/engine/src/value/equality.rs`):
values of different `Type` are unequal; numbers compare through
`Number::equal` after widening `Integer32` to `f64`; `BigInt` compares by
`JsBigInt::equal`; everything else through `same_value_non_numeric`. -/
def strict_equals (x y : Value) : Bool :=
  if x.get_type ≠ y.get_type then false
  else match x, y with
    | .bigint a, .bigint b => bigIntEqual a b
    | .float64 a, .float64 b => Number.equal a b
    | .float64 a, .integer32 b => Number.equal a (F64.ofInt b)
    | .integer32 a, .float64 b => Number.equal (F64.ofInt a) b
    | .integer32 a, .integer32 b => a = b
    | .null, .null => true
    | _, _ => same_value_non_numeric x y

/-- Model of `JsValue::same_value` (`src/core/engine/src/value/equality.rs`):
like `strict_equals` but with the `SameValue` semantics on doubles. -/
def same_value (x y : Value) : Bool :=
  if x.get_type ≠ y.get_type then false
  else match x, y with
    | .bigint a, .bigint b => bigIntEqual a b
    | .float64 a, .float64 b => Number.sameValue a b
    | .float64 a, .integer32 b => Number.sameValue a (F64.ofInt b)
    | .integer32 a, .float64 b => Number.sameValue (F64.ofInt a) b
    | .integer32 a, .integer32 b => a = b
    | _, _ => same_value_non_numeric x y

end Value

/-! ## `JsBigInt::pow` -/

namespace JsBigInt

/-- Binary digit counter with explicit fuel: `bitsAux fuel n` halves `n`
until it hits zero, counting the steps; any `fuel > log2 n` gives the
number of binary digits of `n`. -/
def bitsAux : ℕ → ℕ → ℕ
  | 0, _ => 0
  | fuel + 1, n => if n = 0 then 0 else bitsAux fuel (n / 2) + 1

/-- Model of `num_bigint::BigInt::bits`: the number of bits needed to
represent the absolute value, with `bits 0 = 0` and
`bits n = floor (log2 |n|) + 1` otherwise. The fuel `|x| + 1` always
exceeds `log2 |x|`, so the count is exact. -/
def bits (x : ℤ) : ℕ := bitsAux (x.natAbs + 1) x.natAbs

/-- Model of `JsBigInt::pow` (`src/core/engine/src/bigint.rs`): a negative
exponent is a `RangeError`; otherwise the source computes
`num_bits = (bits(x) as f64 * y as f64).floor() + 1` and errors when
`num_bits > 1_000_000_000f64`. In the regime that decides the comparison
both factors are below `2^53`, so the double computation is exact and is
modelled by exact integer arithmetic: `num_bits = bits x * y + 1` (when
either factor is large enough for rounding to occur, the product is far
above `1e9` before and after rounding, so the branch taken is the same). -/
def pow (x y : ℤ) : Except String ℤ :=
  if y < 0 then .error "BigInt negative exponent"
  else
    let numBits : ℤ := (bits x : ℤ) * y + 1
    if numBits > 1000000000 then .error "Maximum BigInt size exceeded"
    else .ok (x ^ y.toNat)

end JsBigInt

/-! ## The object heap model

Objects carry a prototype (another object or null), an extensible flag, a
marker for whether their `[[GetPrototypeOf]]` vtable entry is the ordinary
one (`ordinary_get_prototype_of`), and a map of own properties. Property
keys are interned identifiers. The heap is a total map from object ids to
object data, modelling the graph of `JsObject` references.
-/

/-- Model of a stored own property: own properties produced by
`ordinary_get_own_property` are always complete descriptors, either data
(value, writable, enumerable, configurable) or accessor (get, set,
enumerable, configurable); absent getters/setters are stored as the
`undefined` value. -/
inductive FullDesc where
  | data (value : Value) (writable enumerable configurable : Bool)
  | accessor (getV setV : Value) (enumerable configurable : Bool)
deriving DecidableEq

/-- Model of `PropertyDescriptor` with optional fields, as built by
`PropertyDescriptor::builder()` and consumed by
`validate_and_apply_property_descriptor`. The struct itself lives in
`property/mod.rs`, which is not under `src/`; it is modelled from the spec:
an ECMAScript property descriptor where every field may be absent. -/
structure PDesc where
  value : Option Value := none
  writable : Option Bool := none
  getV : Option Value := none
  setV : Option Value := none
  enumerable : Option Bool := none
  configurable : Option Bool := none
deriving DecidableEq

namespace PDesc

/-- Modelled from the spec: `IsDataDescriptor` — a value or writable field
is present. -/
def isData (d : PDesc) : Bool := d.value.isSome || d.writable.isSome

/-- Modelled from the spec: `IsAccessorDescriptor` — a get or set field is
present. -/
def isAccessor (d : PDesc) : Bool := d.getV.isSome || d.setV.isSome

/-- Modelled from the spec: `IsGenericDescriptor` — neither data nor
accessor fields are present. -/
def isGeneric (d : PDesc) : Bool := !d.isData && !d.isAccessor

/-- Modelled from the spec: `PropertyDescriptor::is_empty` — every field is
absent. -/
def isEmpty (d : PDesc) : Bool :=
  d.value.isNone && d.writable.isNone && d.getV.isNone && d.setV.isNone &&
    d.enumerable.isNone && d.configurable.isNone

/-- Modelled from the spec: `into_data_defaulted` — build a complete data
property from a descriptor, absent attributes taking their default values
(`undefined` and `false`). -/
def intoDataDefaulted (d : PDesc) : FullDesc :=
  .data (d.value.getD .undefined) (d.writable.getD false)
    (d.enumerable.getD false) (d.configurable.getD false)

/-- Modelled from the spec: `into_accessor_defaulted` — build a complete
accessor property from a descriptor, absent attributes taking their default
values. -/
def intoAccessorDefaulted (d : PDesc) : FullDesc :=
  .accessor (d.getV.getD .undefined) (d.setV.getD .undefined)
    (d.enumerable.getD false) (d.configurable.getD false)

end PDesc

namespace FullDesc

/-- Whether a complete property is a data property. -/
def isData : FullDesc → Bool
  | .data .. => true
  | .accessor .. => false

/-- The configurable attribute of a complete property
(`expect_configurable`). -/
def configurable : FullDesc → Bool
  | .data _ _ _ c => c
  | .accessor _ _ _ c => c

/-- The enumerable attribute of a complete property (`expect_enumerable`). -/
def enumerable : FullDesc → Bool
  | .data _ _ e _ => e
  | .accessor _ _ e _ => e

/-- Modelled from the spec: converting a data property to an accessor
property preserves enumerable and configurable and defaults the rest
(`into_accessor_defaulted` on a complete property). -/
def intoAccessorDefaulted : FullDesc → FullDesc
  | .data _ _ e c => .accessor .undefined .undefined e c
  | .accessor g s e c => .accessor g s e c

/-- Modelled from the spec: converting an accessor property to a data
property preserves enumerable and configurable and defaults the rest
(`into_data_defaulted` on a complete property). -/
def intoDataDefaulted : FullDesc → FullDesc
  | .data v w e c => .data v w e c
  | .accessor _ _ e c => .data .undefined false e c

/-- Modelled from the spec: `fill_with` — for each field of the descriptor
that is present, overwrite the corresponding attribute of the property. -/
def fillWith : FullDesc → PDesc → FullDesc
  | .data v w e c, d =>
      .data (d.value.getD v) (d.writable.getD w)
        (d.enumerable.getD e) (d.configurable.getD c)
  | .accessor g s e c, d =>
      .accessor (d.getV.getD g) (d.setV.getD s)
        (d.enumerable.getD e) (d.configurable.getD c)

end FullDesc

/-- Model of the observable state of one `JsObject`: prototype, extensible
flag, whether its `__get_prototype_of__` vtable entry is the ordinary
internal method, and its own named properties. -/
structure ObjData where
  proto : Option ℕ
  extensible : Bool
  ordinaryGetProto : Bool
  props : ℕ → Option FullDesc

/-- The heap: a total map from object ids to object data. -/
abbrev Heap := ℕ → ObjData

/-- Update the prototype of one object, leaving everything else intact
(`obj.set_prototype(val)`). -/
def setProto (h : Heap) (o : ℕ) (v : Option ℕ) : Heap :=
  fun i => if i = o then
    { proto := v, extensible := (h o).extensible,
      ordinaryGetProto := (h o).ordinaryGetProto, props := (h o).props }
  else h i

/-- Insert (or overwrite) one own property of one object
(`properties.insert_with_slot`). -/
def insertProp (h : Heap) (o k : ℕ) (d : FullDesc) : Heap :=
  fun i => if i = o then
    { proto := (h o).proto, extensible := (h o).extensible,
      ordinaryGetProto := (h o).ordinaryGetProto,
      props := fun k2 => if k2 = k then some d else (h o).props k2 }
  else h i

/-! ## `ordinary_set_prototype_of` -/

/-- Model of the cycle-detection loop of `ordinary_set_prototype_of`
(`src/core/engine/src/object/internal_methods/mod.rs`, step 8): walk the
prototype chain upward from `p`; return `false` when `obj` is found,
`true` when the walk reaches null or an object whose `[[GetPrototypeOf]]`
is not the ordinary internal method. The Rust loop has no fuel; the `fuel`
argument makes the model total, `none` standing for a non-terminating walk
(which cannot occur on cycle-free heaps). -/
def walkProto (h : Heap) (o : ℕ) : ℕ → Option ℕ → Option Bool
  | 0, _ => none
  | _ + 1, none => some true
  | fuel + 1, some q =>
      if q = o then some false
      else if (h q).ordinaryGetProto then walkProto h o fuel (h q).proto
      else some true

/-- Model of `ordinary_set_prototype_of`
(`src/core/engine/src/object/internal_methods/mod.rs`): return `true`
immediately when the new prototype equals the current one; then fail when
the object is not extensible; then walk the chain from the new prototype
and fail when the walk finds the object; otherwise install the new
prototype. -/
def ordinarySetPrototypeOf (h : Heap) (o : ℕ) (v : Option ℕ) (fuel : ℕ) :
    Option (Bool × Heap) :=
  if v = (h o).proto then some (true, h)
  else if !(h o).extensible then some (false, h)
  else match walkProto h o fuel v with
    | none => none
    | some false => some (false, h)
    | some true => some (true, setProto h o v)

/-- An `n`-step chain of ordinary prototype links from `x` to `y`: every
node stepped from has the ordinary `[[GetPrototypeOf]]` and a non-null
prototype. This is the chain the cycle-detection walk follows. -/
def ProtoChain (h : Heap) : ℕ → ℕ → ℕ → Prop
  | 0, x, y => x = y
  | n + 1, x, y =>
      (h x).ordinaryGetProto = true ∧
        ∃ w, (h x).proto = some w ∧ ProtoChain h n w y

/-- A heap is ordinary-cycle-free when no object lies on a non-trivial
chain of ordinary prototype links back to itself. -/
def CycleFree (h : Heap) : Prop :=
  ∀ x n, ¬ ProtoChain h (n + 1) x x

/-! ## `validate_and_apply_property_descriptor` and `ordinary_set` -/

/-- Model of `validate_and_apply_property_descriptor`
(`src/core/engine/src/object/internal_methods/mod.rs`). The `target`
argument models `obj_and_key` (`None` for the pure validation used by
`is_compatible_property_descriptor`); the returned heap carries the
mutation of step 2c/2d and step 9. -/
def validateAndApply (target : Option (ℕ × ℕ)) (extensible : Bool)
    (desc : PDesc) (current : Option FullDesc) (h : Heap) : Bool × Heap :=
  match current with
  | none =>
    -- 2. If current is undefined: extensibility gates creation.
    if !extensible then (false, h)
    else match target with
      | some (o, k) =>
          (true, insertProp h o k
            (if desc.isGeneric || desc.isData then desc.intoDataDefaulted
             else desc.intoAccessorDefaulted))
      | none => (true, h)
  | some current0 =>
    -- 3. If every field in Desc is absent, return true.
    if desc.isEmpty then (true, h)
    -- 4. If current.[[Configurable]] is false, then
    else if !current0.configurable &&
        (desc.configurable = some true ||
          (match desc.enumerable with
            | some e => decide (e ≠ current0.enumerable)
            | none => false)) then (false, h)
    else
      -- 5./6. Generic descriptors need no further validation; a kind
      -- change requires configurability and converts the property.
      let kindChange := current0.isData ≠ desc.isData
      if !desc.isGeneric && kindChange && !current0.configurable then (false, h)
      else
        let current1 :=
          if !desc.isGeneric && kindChange && target.isSome then
            if current0.isData then current0.intoAccessorDefaulted
            else current0.intoDataDefaulted
          else current0
        -- 7. Both data: a non-configurable non-writable property only
        -- admits a descriptor that changes nothing.
        if !desc.isGeneric && !kindChange && current0.isData && desc.isData then
          match current0 with
          | .data v0 w0 _ c0 =>
            if !c0 && !w0 then
              if desc.writable = some true then (false, h)
              else if (match desc.value with
                  | some v => !(Value.same_value v v0)
                  | none => false) then (false, h)
              else (true, h)
            else
              applyStep9 target desc current1 h
          | .accessor .. => applyStep9 target desc current1 h
        -- 8. Both accessor: a non-configurable property only admits a
        -- descriptor whose get/set fields are unchanged.
        else if !desc.isGeneric && !kindChange && !current0.isData then
          match current0 with
          | .accessor g0 s0 _ c0 =>
            if !c0 then
              if (match desc.setV with
                  | some s => !(Value.same_value s s0)
                  | none => false) then (false, h)
              else if (match desc.getV with
                  | some g => !(Value.same_value g g0)
                  | none => false) then (false, h)
              else (true, h)
            else
              applyStep9 target desc current1 h
          | .data .. => applyStep9 target desc current1 h
        else
          applyStep9 target desc current1 h
where
  /-- Step 9: when a target object is given, fill the (possibly converted)
  current property with the present descriptor fields and store it. -/
  applyStep9 (target : Option (ℕ × ℕ)) (desc : PDesc) (cur : FullDesc)
      (h : Heap) : Bool × Heap :=
    match target with
    | some (o, k) => (true, insertProp h o k (cur.fillWith desc))
    | none => (true, h)

/-- Model of `ordinary_define_own_property`
(`src/core/engine/src/object/internal_methods/mod.rs`): read the current
own property and the extensible flag, then validate-and-apply. -/
def ordinaryDefineOwnProperty (h : Heap) (o k : ℕ) (desc : PDesc) :
    Bool × Heap :=
  validateAndApply (some (o, k)) (h o).extensible desc ((h o).props k) h

/-- Result of a `[[Set]]` step. Setter invocation runs arbitrary user code,
so the model reifies it as an observable outcome (`invokesSetter` carries
the setter, the assigned value and the heap at the call; the source then
returns `Ok(true)`); `outOfFuel` models a prototype walk longer than the
provided fuel. -/
inductive SetResult where
  | ok (b : Bool) (h : Heap)
  | invokesSetter (s : Value) (v : Value) (h : Heap)
  | outOfFuel
deriving Nonempty

/-- Model of `OrdinarySetWithOwnDescriptor` — the part of `ordinary_set`
(`src/core/engine/src/object/internal_methods/mod.rs`) after the own
descriptor has been determined: a non-writable own data property fails; a
non-object receiver fails; an accessor on the receiver fails; a
non-writable receiver property fails; otherwise the value is defined on
the receiver; an accessor own descriptor invokes its setter when it is not
`undefined`. -/
def ordinarySetWithOwnDesc (h : Heap) (k : ℕ) (v receiver : Value)
    (ownDesc : FullDesc) : SetResult :=
  match ownDesc with
  | .data _ w _ _ =>
    -- 3.a. If ownDesc.[[Writable]] is false, return false.
    if !w then .ok false h
    else match receiver with
      | .object r =>
        match (h r).props k with
        | some (.accessor ..) => .ok false h
        | some (.data _ rw _ _) =>
          if !rw then .ok false h
          else
            -- 3.d.iv. Receiver.[[DefineOwnProperty]](P, { [[Value]]: V }).
            let res := ordinaryDefineOwnProperty h r k { value := some v }
            .ok res.1 res.2
        | none =>
          -- 3.e.ii. CreateDataProperty(Receiver, P, V); modelled from the
          -- spec: `create_data_property_with_slot` defines a data property
          -- with writable, enumerable and configurable all true.
          let res := ordinaryDefineOwnProperty h r k
            { value := some v, writable := some true,
              enumerable := some true, configurable := some true }
          .ok res.1 res.2
      -- 3.b. If Type(Receiver) is not Object, return false.
      | _ => .ok false h
  | .accessor _ s _ _ =>
    -- 5.-8. Call the setter when present, else fail.
    if s ≠ .undefined then .invokesSetter s v h
    else .ok false h

/-- Model of `ordinary_set`
(`src/core/engine/src/object/internal_methods/mod.rs`): use the own
property when present; otherwise delegate to the parent (the parent's
`[[Set]]` is modelled as the ordinary one, which is what the checked claim
is about); at the end of the chain use the default descriptor
`{ undefined, writable, enumerable, configurable }`. The fuel bounds the
prototype walk, which the Rust code performs by unbounded recursion. -/
def ordinarySet (h : Heap) (o k : ℕ) (v receiver : Value) : ℕ → SetResult
  | 0 => .outOfFuel
  | fuel + 1 =>
    match (h o).props k with
    | some ownDesc => ordinarySetWithOwnDesc h k v receiver ownDesc
    | none =>
      match (h o).proto with
      | some parent => ordinarySet h parent k v receiver fuel
      | none =>
        ordinarySetWithOwnDesc h k v receiver
          (.data .undefined true true true)

/-! ## Prototype-chain lemmas -/

theorem setProto_apply_self (h : Heap) (o : ℕ) (v : Option ℕ) :
    setProto h o v o =
      { proto := v, extensible := (h o).extensible,
        ordinaryGetProto := (h o).ordinaryGetProto, props := (h o).props } := by
  simp [setProto]

theorem setProto_apply_other (h : Heap) (o : ℕ) (v : Option ℕ) {x : ℕ}
    (hx : x ≠ o) : setProto h o v x = h x := by
  simp [setProto, hx]

theorem protoChain_trans (h : Heap) :
    ∀ m n x y z, ProtoChain h m x y → ProtoChain h n y z →
      ProtoChain h (m + n) x z := by
  intro m
  induction m with
  | zero =>
    intro n x y z hxy hyz
    cases hxy
    simpa using hyz
  | succ m ih =>
    intro n x y z hxy hyz
    obtain ⟨hord, w, hw, hrest⟩ := hxy
    have hsum : m + 1 + n = (m + n) + 1 := by omega
    rw [hsum]
    exact ⟨hord, w, hw, ih n w y z hrest hyz⟩

theorem walkProto_finds (h : Heap) (o : ℕ) :
    ∀ n fuel v, ProtoChain h n v o → n < fuel →
      walkProto h o fuel (some v) = some false := by
  intro n
  induction n with
  | zero =>
    intro fuel v hchain hlt
    cases hchain
    obtain ⟨f, rfl⟩ := Nat.exists_eq_succ_of_ne_zero (Nat.pos_iff_ne_zero.mp hlt)
    simp [walkProto]
  | succ n ih =>
    intro fuel v hchain hlt
    obtain ⟨hord, w, hw, hrest⟩ := hchain
    obtain ⟨f, rfl⟩ := Nat.exists_eq_succ_of_ne_zero
      (Nat.pos_iff_ne_zero.mp (Nat.lt_of_le_of_lt (Nat.zero_le _) hlt))
    by_cases hv : v = o
    · simp [walkProto, hv]
    · simp only [walkProto, if_neg hv, hord, if_pos, hw]
      exact ih f w hrest (Nat.lt_of_succ_lt_succ hlt)

theorem walkProto_true_no_chain (h : Heap) (o : ℕ) :
    ∀ n fuel v, walkProto h o fuel (some v) = some true →
      ProtoChain h n v o → False := by
  intro n
  induction n with
  | zero =>
    intro fuel v hwalk hchain
    cases hchain
    cases fuel with
    | zero => simp [walkProto] at hwalk
    | succ f => simp [walkProto] at hwalk
  | succ n ih =>
    intro fuel v hwalk hchain
    obtain ⟨hord, w, hw, hrest⟩ := hchain
    cases fuel with
    | zero => simp [walkProto] at hwalk
    | succ f =>
      by_cases hv : v = o
      · simp [walkProto, hv] at hwalk
      · rw [walkProto, if_neg hv, if_pos hord, hw] at hwalk
        exact ih f w hwalk hrest

theorem protoChain_setProto_decompose (h : Heap) (o : ℕ) (v : Option ℕ) :
    ∀ n x y, ProtoChain (setProto h o v) n x y →
      ProtoChain h n x y ∨
        ∃ v0 m1 m2, v = some v0 ∧ m1 + m2 + 1 = n ∧
          ProtoChain h m1 x o ∧ ProtoChain (setProto h o v) m2 v0 y := by
  intro n
  induction n with
  | zero =>
    intro x y hchain
    exact Or.inl hchain
  | succ n ih =>
    intro x y hchain
    obtain ⟨hord, w, hw, hrest⟩ := hchain
    by_cases hx : x = o
    · subst hx
      rw [setProto_apply_self] at hw
      exact Or.inr ⟨w, 0, n, hw, by omega, rfl, hrest⟩
    · rw [setProto_apply_other h o v hx] at hord hw
      rcases ih w y hrest with hl | ⟨v0, m1, m2, hv, hsum, h1, h2⟩
      · exact Or.inl ⟨hord, w, hw, hl⟩
      · exact Or.inr ⟨v0, m1 + 1, m2, hv, by omega, ⟨hord, w, hw, h1⟩, h2⟩

theorem cycleFree_setProto (h : Heap) (o : ℕ) (v : Option ℕ) (fuel : ℕ)
    (hcf : CycleFree h) (hwalk : walkProto h o fuel v = some true) :
    CycleFree (setProto h o v) := by
  intro x n hcyc
  rcases protoChain_setProto_decompose h o v (n + 1) x x hcyc with
    hl | ⟨v0, m1, m2, hv, _, h1, h2⟩
  · exact hcf x n hl
  · subst hv
    rcases protoChain_setProto_decompose h o (some v0) m2 v0 x h2 with
      hl2 | ⟨v1, k1, k2, hv1, _, h3, _⟩
    · exact walkProto_true_no_chain h o (m2 + m1) fuel v0 hwalk
        (protoChain_trans h m2 m1 v0 x o hl2 h1)
    · exact walkProto_true_no_chain h o k1 fuel v0 hwalk h3

/-- Claim C1: when the ordinary prototype chain upward from the candidate
prototype `V` reaches `O` (creating a cycle), `ordinary_set_prototype_of`
returns `false` and leaves the heap — in particular `O`'s prototype —
unchanged; and on any completed call, an ordinary-cycle-free heap stays
ordinary-cycle-free, so the prototype chain of objects with the ordinary
`[[GetPrototypeOf]]` remains acyclic after any sequence of operations. -/
theorem ordinary_set_prototype_of_rejects_cycle (h : Heap) (o : ℕ)
    (v : Option ℕ) (fuel : ℕ) (hcf : CycleFree h) :
    (∀ v0 n, v = some v0 → (h o).ordinaryGetProto = true →
        ProtoChain h n v0 o → n < fuel →
        ordinarySetPrototypeOf h o v fuel = some (false, h)) ∧
      (∀ b h2, ordinarySetPrototypeOf h o v fuel = some (b, h2) →
        CycleFree h2) := by
  constructor
  · intro v0 n hv hordo hchain hlt
    subst hv
    have hne : some v0 ≠ (h o).proto := by
      intro hcontra
      exact hcf o n ⟨hordo, v0, hcontra.symm, hchain⟩
    rw [ordinarySetPrototypeOf, if_neg hne,
      walkProto_finds h o n fuel v0 hchain hlt]
    by_cases hext : (h o).extensible <;> simp [hext]
  · intro b h2 hres
    rw [ordinarySetPrototypeOf] at hres
    by_cases h1 : v = (h o).proto
    · rw [if_pos h1] at hres
      simp only [Option.some.injEq, Prod.mk.injEq] at hres
      obtain ⟨-, rfl⟩ := hres
      exact hcf
    · rw [if_neg h1] at hres
      by_cases h2e : (h o).extensible
      · rw [if_neg (by simp [h2e])] at hres
        cases hw : walkProto h o fuel v with
        | none => rw [hw] at hres; simp at hres
        | some bb =>
          rw [hw] at hres
          cases bb with
          | false =>
            simp only [Option.some.injEq, Prod.mk.injEq] at hres
            obtain ⟨-, rfl⟩ := hres
            exact hcf
          | true =>
            simp only [Option.some.injEq, Prod.mk.injEq] at hres
            obtain ⟨-, rfl⟩ := hres
            exact cycleFree_setProto h o v fuel hcf hw
      · rw [if_pos (by simp [h2e])] at hres
        simp only [Option.some.injEq, Prod.mk.injEq] at hres
        obtain ⟨-, rfl⟩ := hres
        exact hcf

/-- Heap used to witness the cycle-rejection theorem: object `1` has
prototype `0`; every other object has prototype null; everything is
extensible and ordinary, with no properties. -/
def cycleWitnessHeap : Heap := fun i =>
  if i = 1 then
    { proto := some 0, extensible := true, ordinaryGetProto := true,
      props := fun _ => none }
  else
    { proto := none, extensible := true, ordinaryGetProto := true,
      props := fun _ => none }

theorem cycleWitnessHeap_cycleFree : CycleFree cycleWitnessHeap := by
  intro x n hc
  obtain ⟨_, w, hw, hrest⟩ := hc
  by_cases hx : x = 1
  · subst hx
    have hp : (cycleWitnessHeap 1).proto = some 0 := rfl
    rw [hp] at hw
    injection hw with hw
    subst hw
    cases n with
    | zero => simp [ProtoChain] at hrest
    | succ m =>
      obtain ⟨_, w2, hw2, _⟩ := hrest
      have hp0 : (cycleWitnessHeap 0).proto = none := rfl
      rw [hp0] at hw2
      cases hw2
  · simp [cycleWitnessHeap, hx] at hw

theorem ordinary_set_prototype_of_rejects_cycle_witness :
    ordinarySetPrototypeOf cycleWitnessHeap 0 (some 1) 2 =
      some (false, cycleWitnessHeap) :=
  (ordinary_set_prototype_of_rejects_cycle cycleWitnessHeap 0 (some 1) 2
      cycleWitnessHeap_cycleFree).1 1 1 rfl
    (by simp [cycleWitnessHeap])
    ⟨by simp [cycleWitnessHeap], 0, by simp [cycleWitnessHeap], rfl⟩
    (by decide)

/-- Claim C10: setting an object's prototype to its current prototype
returns `true` and leaves the whole heap — prototype, properties,
extensible flag — unchanged, on every heap, in particular when the object
is not extensible: the extensibility check is never reached. -/
theorem ordinary_set_prototype_of_same_proto_noop (h : Heap) (o : ℕ)
    (fuel : ℕ) :
    ordinarySetPrototypeOf h o ((h o).proto) fuel = some (true, h) := by
  simp [ordinarySetPrototypeOf]

/-- Claim C2: a `[[Set]]` on an object holding a non-writable own data
property under the key, with the object itself as receiver, returns
`Ok(false)` and leaves the heap — the stored value, the attributes, the
whole property map — unchanged, for every assigned value. -/
theorem ordinary_set_nonwritable_own_data (h : Heap) (o k : ℕ)
    (v dv : Value) (de dc : Bool) (fuel : ℕ)
    (hprop : (h o).props k = some (.data dv false de dc)) :
    ordinarySet h o k v (.object o) (fuel + 1) = .ok false h := by
  simp [ordinarySet, hprop, ordinarySetWithOwnDesc]

/-- Heap used to witness the non-writable `[[Set]]` theorem: object `0`
holds key `0` as a non-writable data property with value `null`. -/
def nonWritableWitnessHeap : Heap := fun _ =>
  { proto := none, extensible := true, ordinaryGetProto := true,
    props := fun k => if k = 0 then some (.data .null false true true)
      else none }

theorem ordinary_set_nonwritable_own_data_witness :
    ordinarySet nonWritableWitnessHeap 0 0 (.integer32 7) (.object 0) 1 =
      .ok false nonWritableWitnessHeap :=
  ordinary_set_nonwritable_own_data nonWritableWitnessHeap 0 0
    (.integer32 7) .null true true 0 (by simp [nonWritableWitnessHeap])

/-! ## Strict equality across number encodings (claim C3) -/

/-- Claim C3: strict equality never distinguishes the `Integer32` and
`Float64` encodings of the same mathematical value — for every `i32` value
`n`, `Integer32 n` and `Float64 (n as f64)` are strictly equal in both
argument orders; `-0.0` strictly equals `+0.0`; `Integer32 0` strictly
equals `Float64 (-0.0)`; and `NaN` does not strictly equal `NaN`. -/
theorem strict_equals_number_encodings :
    (∀ n : ℤ, -(2 ^ 31) ≤ n → n < 2 ^ 31 →
      Value.strict_equals (.integer32 n) (.float64 (F64.ofInt n)) = true ∧
        Value.strict_equals (.float64 (F64.ofInt n)) (.integer32 n) = true) ∧
      Value.strict_equals (.float64 .negZero) (.float64 (.finite 0)) = true ∧
      Value.strict_equals (.integer32 0) (.float64 .negZero) = true ∧
      Value.strict_equals (.float64 .nan) (.float64 .nan) = false := by
  refine ⟨fun n _ _ => ⟨?_, ?_⟩, ?_, ?_, ?_⟩ <;>
    simp [Value.strict_equals, Value.get_type, Number.equal, F64.ofInt,
      Value.same_value_non_numeric]

theorem strict_equals_number_encodings_witness :
    Value.strict_equals (.integer32 5) (.float64 (F64.ofInt 5)) = true ∧
      Value.strict_equals (.float64 (F64.ofInt 5)) (.integer32 5) = true :=
  strict_equals_number_encodings.1 5 (by decide) (by decide)

/-! ## `JsBigInt::pow` bound (claim C4) -/

/-- Claim C4 counterexample: at `x = 2`, `y = 500000000` the product
`bits(x) * y` equals exactly `10^9`, which does not exceed `10^9`, yet the
code raises the `RangeError`: the computed `num_bits` is `bits(x)*y + 1 =
10^9 + 1 > 10^9`. -/
theorem jsbigint_pow_boundary_counterexample :
    JsBigInt.pow 2 500000000 = .error "Maximum BigInt size exceeded" ∧
      ¬ ((JsBigInt.bits 2 : ℤ) * 500000000 > 1000000000) :=
  ⟨rfl, by decide⟩

/-- Claim C4 (amended): `JsBigInt::pow x y` returns a `RangeError` if and
only if `y` is negative or `bits(x) * y` is at least (rather than strictly
exceeds) `10^9` — the source rejects when `bits(x)*y + 1 > 10^9`;
otherwise it returns the exact integer `x` raised to the power `y`. -/
theorem jsbigint_pow_characterization (x y : ℤ) :
    ((∃ e, JsBigInt.pow x y = .error e) ↔
        y < 0 ∨ (JsBigInt.bits x : ℤ) * y ≥ 1000000000) ∧
      ∀ z, JsBigInt.pow x y = .ok z → z = x ^ y.toNat := by
  by_cases hy : y < 0
  · refine ⟨⟨fun _ => Or.inl hy, fun _ => ?_⟩, fun z hz => ?_⟩
    · exact ⟨"BigInt negative exponent", by simp [JsBigInt.pow, hy]⟩
    · simp [JsBigInt.pow, hy] at hz
  · by_cases hb : (JsBigInt.bits x : ℤ) * y + 1 > 1000000000
    · refine ⟨⟨fun _ => Or.inr (by omega), fun _ => ?_⟩, fun z hz => ?_⟩
      · exact ⟨"Maximum BigInt size exceeded", by simp [JsBigInt.pow, hy, hb]⟩
      · simp [JsBigInt.pow, hy, hb] at hz
    · refine ⟨⟨fun he => ?_, fun hor => ?_⟩, fun z hz => ?_⟩
      · obtain ⟨e, he⟩ := he
        simp [JsBigInt.pow, hy, hb] at he
      · rcases hor with h | h
        · exact absurd h hy
        · omega
      · simpa [JsBigInt.pow, hy, hb] using hz.symm

theorem jsbigint_pow_characterization_witness : (9 : ℤ) = 3 ^ (2 : ℤ).toNat :=
  (jsbigint_pow_characterization 3 2).2 9 rfl

/-! ## `RegExp::abstract_builtin_exec` and `lastIndex` (claim C5)

The model follows the source's control flow for the `lastIndex` property
(`src/core/engine/src/builtins/regexp/mod.rs`). The regex engine itself
(the `regress` matcher) is a parameter: `matcher st` is the first match at
or after code-unit index `st`, as a `(start, end)` pair. The value read
from the `lastIndex` property is taken after `to_length`, which yields a
non-negative integer. The second component of the result is the value
written back to the `lastIndex` property (`none` when the property is left
untouched, which happens only for non-global non-sticky regexps).
-/

/-- Model of `RegExp::abstract_builtin_exec` restricted to its observable
match result and `lastIndex` write. Step numbering follows the source:
step 7 zeroes the working index for non-global non-sticky regexps; step
13.a returns null (resetting `lastIndex` for global/sticky) when the
working index overruns the input; a failed match resets `lastIndex` for
global/sticky (merged steps 13.a.i/13.d.i); a match that does not start
exactly at the working index under sticky resets `lastIndex` and returns
null; step 16 stores the match end for global/sticky. -/
def abstractBuiltinExec (matcher : ℕ → Option (ℕ × ℕ))
    (globalFlag sticky : Bool) (length lastIndexProp : ℕ) :
    Option (ℕ × ℕ) × Option ℕ :=
  let lastIndex := if !globalFlag && !sticky then 0 else lastIndexProp
  if lastIndex > length then
    (none, if globalFlag || sticky then some 0 else none)
  else
    match matcher lastIndex with
    | none => (none, if globalFlag || sticky then some 0 else none)
    | some (s, e) =>
      if sticky ∧ s ≠ lastIndex then (none, some 0)
      else (some (s, e), if globalFlag || sticky then some e else none)

/-- Claim C5: for a global or sticky regexp, every exec writes `lastIndex`,
and the written value lies in `[0, length]`: it is `0` whenever the match
failed (including a start index beyond the input), and the match's end
index — itself at most `length` — when the match succeeded. -/
theorem regexp_exec_lastIndex_clamped (matcher : ℕ → Option (ℕ × ℕ))
    (globalFlag sticky : Bool) (length li0 : ℕ)
    (hgs : globalFlag = true ∨ sticky = true)
    (hm : ∀ st s e, matcher st = some (s, e) → e ≤ length) :
    ∃ li,
      (abstractBuiltinExec matcher globalFlag sticky length li0).2 = some li ∧
        li ≤ length ∧
        ((abstractBuiltinExec matcher globalFlag sticky length li0).1 =
            none → li = 0) ∧
        (∀ s e,
          (abstractBuiltinExec matcher globalFlag sticky length li0).1 =
            some (s, e) → li = e) := by
  have hgs2 : (globalFlag || sticky) = true := by
    rcases hgs with h | h <;> simp [h]
  rw [abstractBuiltinExec]
  set lastIndex := if !globalFlag && !sticky then 0 else li0 with hli
  by_cases hover : lastIndex > length
  · refine ⟨0, ?_⟩
    simp [hover, hgs2]
  · rw [if_neg hover]
    cases hmatch : matcher lastIndex with
    | none =>
      refine ⟨0, ?_⟩
      simp [hgs2]
    | some pair =>
      obtain ⟨s, e⟩ := pair
      by_cases hst : sticky ∧ s ≠ lastIndex
      · refine ⟨0, ?_⟩
        simp [hst]
      · refine ⟨e, ?_⟩
        simp only [if_neg hst, hgs2, if_pos]
        refine ⟨by simp, hm lastIndex s e hmatch, by simp, ?_⟩
        intro s2 e2 heq
        simp only [Option.some.injEq, Prod.mk.injEq] at heq
        exact heq.2

/-- Matcher used to witness the `lastIndex` theorem: matches two code
units starting wherever the search begins, while the start is at most 3. -/
def witnessMatcher (st : ℕ) : Option (ℕ × ℕ) :=
  if st ≤ 3 then some (st, st + 2) else none

theorem regexp_exec_lastIndex_clamped_witness :
    ∃ li, (abstractBuiltinExec witnessMatcher true false 5 1).2 = some li ∧
      li ≤ 5 ∧
      ((abstractBuiltinExec witnessMatcher true false 5 1).1 = none →
        li = 0) ∧
      (∀ s e, (abstractBuiltinExec witnessMatcher true false 5 1).1 =
        some (s, e) → li = e) :=
  regexp_exec_lastIndex_clamped witnessMatcher true false 5 1 (Or.inl rfl)
    (by
      intro st s e h
      rw [witnessMatcher] at h
      by_cases hst : st ≤ 3
      · rw [if_pos hst] at h
        simp only [Option.some.injEq, Prod.mk.injEq] at h
        omega
      · rw [if_neg hst] at h
        cases h)

/-! ## `ByteCompiler::compile_try` for `try`/`finally` (claim C6)

The model works at instruction granularity: each emitted opcode is one
list element, and jump targets are list indices (the source patches
absolute bytecode offsets; the layout is identical). The compiled bodies
of the `try` block and of the `finally` block are parameters — they stand
for the output of `compile_block` on the respective blocks.
-/

/-- Bytecode instructions emitted by the modelled fragment of the
compiler; `other` covers body instructions that the wrapper never emits. -/
inductive Instr where
  | pushTrue (r : ℕ)
  | pushFalse (r : ℕ)
  | jump (target : ℕ)
  | jumpIfFalse (r : ℕ) (target : ℕ)
  | exception (r : ℕ)
  | throwInstr (r : ℕ)
  | reThrow
  | setRegisterFromAccumulator (r : ℕ)
  | setAccumulator (r : ℕ)
  | pushUndefined (r : ℕ)
  | nop
  | other (n : ℕ)
deriving DecidableEq

/-- Model of `ByteCompiler::compile_finally_stmt`
(`src/core/engine/src/bytecompiler/statement/try.rs`): save the
accumulator into a scratch register, emit the compiled finally block
(`body`), restore the accumulator. -/
def compileFinallyStmt (v : ℕ) (body : List Instr) : List Instr :=
  [.setRegisterFromAccumulator v] ++ body ++ [.setAccumulator v]

/-- Model of the `TryVariant::Finally` (non-generator) arm of
`ByteCompiler::compile_try`
(`src/core/engine/src/bytecompiler/statement/try.rs`), with the emission
order and patched jump targets of the source: `r` is the
`finally_re_throw` register (pushed `true` before the try block, `false`
on normal completion of it, `true` again on the handler path), `e` the
exception register, `v` the accumulator scratch register of
`compile_finally_stmt`. Both the normal-completion jump and the
handler-path jump are patched to `finally_start = |tryBody| + 6`, the
position of the single emitted copy of the finally code; the epilogue
jumps past the re-throw when `r` is false. -/
def compileTryFinally (tryBody finallyBody : List Instr) (r e v : ℕ) :
    List Instr :=
  [.pushTrue r] ++ tryBody ++
    [.pushFalse r, .jump (tryBody.length + 6), .exception e, .pushTrue r,
      .jump (tryBody.length + 6)] ++
    compileFinallyStmt v finallyBody ++
    [.jumpIfFalse r (tryBody.length + finallyBody.length + 10),
      .throwInstr e]

theorem get?_append_middle {α : Type} (l1 l2 : List α) (a : α) (k : ℕ)
    (hk : l1.length = k) : (l1 ++ a :: l2).get? k = some a := by
  subst hk
  rw [List.get?_append_right (Nat.le_refl _)]
  simp

theorem drop_append_eq {α : Type} (l1 l2 : List α) (k : ℕ)
    (hk : l1.length = k) : (l1 ++ l2).drop k = l2 := by
  subst hk
  exact List.drop_left l1 l2

/-- Claim C6 counterexample: for the concrete statement
`try { nop } finally { pushUndefined 9 }` the compiler emits the finally
body exactly once, not twice — the instruction appearing only in the
finally block occurs a single time in the output. -/
theorem compile_try_finally_single_copy_counterexample :
    (compileTryFinally [.nop] [.pushUndefined 9] 0 1 2).count
        (.pushUndefined 9) = 1 ∧ (1 : ℕ) ≠ 2 := by
  constructor
  · decide
  · decide

/-- Claim C6 (amended): the compiled body of the finally block is emitted
exactly once — any instruction not occurring in the try body or in the
fixed wrapper occurs in the output exactly as often as in the finally
body, and the finally body sits contiguously at position `|tryBody| + 7` —
and both completion paths share that single copy: the jump emitted after
the try body (normal completion) and the jump emitted at the end of the
exception-handler stub both target `finally_start = |tryBody| + 6`; the
`finally_re_throw` completion register discriminates how the finally was
entered (`true` for a pending exception, `false` for normal completion)
and the finally epilogue re-dispatches on it, re-throwing when it is
`true`. -/
theorem compile_try_finally_emits_body_once (tb fb : List Instr)
    (r e v : ℕ) (i : Instr) (h1 : i ∉ tb)
    (h2 : i ≠ .pushTrue r) (h3 : i ≠ .pushFalse r)
    (h4 : i ≠ .jump (tb.length + 6)) (h5 : i ≠ .exception e)
    (h6 : i ≠ .setRegisterFromAccumulator v) (h7 : i ≠ .setAccumulator v)
    (h8 : i ≠ .jumpIfFalse r (tb.length + fb.length + 10))
    (h9 : i ≠ .throwInstr e) :
    (compileTryFinally tb fb r e v).count i = fb.count i ∧
      (compileTryFinally tb fb r e v).get? (tb.length + 2) =
        some (.jump (tb.length + 6)) ∧
      (compileTryFinally tb fb r e v).get? (tb.length + 5) =
        some (.jump (tb.length + 6)) ∧
      ((compileTryFinally tb fb r e v).drop (tb.length + 7)).take
        fb.length = fb := by
  refine ⟨?_, ?_, ?_, ?_⟩
  · simp [compileTryFinally, compileFinallyStmt, List.count_append,
      List.count_cons, List.count_eq_zero.mpr h1, h2, h3, h4, h5, h6, h7,
      h8, h9, Ne.symm h2, Ne.symm h3, Ne.symm h4, Ne.symm h5, Ne.symm h6,
      Ne.symm h7, Ne.symm h8, Ne.symm h9]
  · have hgroup : compileTryFinally tb fb r e v =
        (Instr.pushTrue r :: (tb ++ [.pushFalse r])) ++
          Instr.jump (tb.length + 6) ::
            (Instr.exception e :: Instr.pushTrue r ::
              Instr.jump (tb.length + 6) ::
                (compileFinallyStmt v fb ++
                  [.jumpIfFalse r (tb.length + fb.length + 10),
                    .throwInstr e])) := by
      simp [compileTryFinally]
    rw [hgroup]
    refine get?_append_middle _ _ _ _ ?_
    simp only [List.length_cons, List.length_append, List.length_nil]
  · have hgroup : compileTryFinally tb fb r e v =
        (Instr.pushTrue r ::
            (tb ++ [.pushFalse r, .jump (tb.length + 6), .exception e,
              .pushTrue r])) ++
          Instr.jump (tb.length + 6) ::
            (compileFinallyStmt v fb ++
              [.jumpIfFalse r (tb.length + fb.length + 10),
                .throwInstr e]) := by
      simp [compileTryFinally]
    rw [hgroup]
    refine get?_append_middle _ _ _ _ ?_
    simp only [List.length_cons, List.length_append, List.length_nil]
  · have hgroup : compileTryFinally tb fb r e v =
        (Instr.pushTrue r ::
            (tb ++ [.pushFalse r, .jump (tb.length + 6), .exception e,
              .pushTrue r, .jump (tb.length + 6),
              .setRegisterFromAccumulator v])) ++
          (fb ++ [.setAccumulator v,
            .jumpIfFalse r (tb.length + fb.length + 10), .throwInstr e]) := by
      simp [compileTryFinally, compileFinallyStmt]
    rw [hgroup]
    rw [drop_append_eq _ _ _ (by
      simp only [List.length_cons, List.length_append, List.length_nil])]
    exact List.take_left fb _

theorem compile_try_finally_emits_body_once_witness :
    (compileTryFinally [Instr.nop] [Instr.other 3] 0 1 2).count
        (Instr.other 3) = [Instr.other 3].count (Instr.other 3) ∧
      (compileTryFinally [Instr.nop] [Instr.other 3] 0 1 2).get? 3 =
        some (.jump 7) ∧
      (compileTryFinally [Instr.nop] [Instr.other 3] 0 1 2).get? 6 =
        some (.jump 7) ∧
      ((compileTryFinally [Instr.nop] [Instr.other 3] 0 1 2).drop 8).take
        1 = [Instr.other 3] :=
  compile_try_finally_emits_body_once [Instr.nop] [Instr.other 3] 0 1 2
    (Instr.other 3) (by decide) (by decide) (by decide) (by decide)
    (by decide) (by decide) (by decide) (by decide) (by decide)

/-! ## `WeakRef` and the `kept_alive` list (claim C7)

The state tracks the context's `kept_alive` list and which objects are
still allocated. `WeakGc::upgrade` and the collector live in `boa_gc`,
which is not under `src/`; they are modelled from the spec: `upgrade`
returns the referent exactly when it has not been collected, and a
collection step may reclaim only objects that are not strong roots — the
spec lists the `kept_alive` list among the GC roots. Turn boundaries
(`clear_kept_objects`) are outside the modelled transitions, which cover
the remainder of one turn.
-/

/-- Observable garbage-collection state: the `kept_alive` list of the
context and the set of still-allocated objects. -/
structure GcState where
  kept : List ℕ
  live : ℕ → Bool

/-- Model of `WeakRef::deref` (`src/core/engine/src/builtins/weak/weak_ref.rs`)
on a `WeakRef` whose `[[WeakRefTarget]]` is `t`: when `upgrade` succeeds
(the referent is still live) the referent is pushed onto `kept_alive` and
returned; otherwise the state is untouched and `undefined` (here `none`)
is returned. -/
def derefOp (s : GcState) (t : ℕ) : Option ℕ × GcState :=
  if s.live t then (some t, { kept := t :: s.kept, live := s.live })
  else (none, s)

/-- Model of step 4 of `WeakRef::constructor`
(`src/core/engine/src/builtins/weak/weak_ref.rs`): `AddToKeptObjects`
pushes the (necessarily live, since it is held as a strong reference)
target onto `kept_alive`. -/
def constructorAddKept (s : GcState) (t : ℕ) : GcState :=
  { kept := t :: s.kept, live := s.live }

/-- One step of the remainder of the current turn, as far as `kept_alive`
and liveness are concerned: another `deref`, another `WeakRef`
construction, an allocation, or a garbage collection. Modelled from the
spec: a collection step may reclaim only objects that are not in the
`kept_alive` list (which is a GC root); nothing removes entries from
`kept_alive` before the turn ends. -/
inductive TurnStep : GcState → GcState → Prop where
  | deref (s : GcState) (t : ℕ) : TurnStep s (derefOp s t).2
  | addKept (s : GcState) (t : ℕ) (hlive : s.live t = true) :
      TurnStep s (constructorAddKept s t)
  | alloc (s : GcState) (t : ℕ) :
      TurnStep s
        { kept := s.kept, live := fun i => if i = t then true else s.live i }
  | collect (s : GcState) (dead : ℕ → Bool)
      (hroots : ∀ t, t ∈ s.kept → dead t = false) :
      TurnStep s { kept := s.kept, live := fun i => s.live i && !dead i }

/-- The reflexive-transitive closure of `TurnStep`: any sequence of
within-turn operations. -/
inductive TurnSteps : GcState → GcState → Prop where
  | refl (s : GcState) : TurnSteps s s
  | step (s1 s2 s3 : GcState) : TurnSteps s1 s2 → TurnStep s2 s3 →
      TurnSteps s1 s3

theorem turnStep_preserves_keptLive {s1 s2 : GcState} (h : TurnStep s1 s2)
    {t : ℕ} (hk : t ∈ s1.kept) (hl : s1.live t = true) :
    t ∈ s2.kept ∧ s2.live t = true := by
  cases h with
  | deref u =>
    rw [derefOp]
    by_cases hu : s1.live u = true
    · rw [if_pos (by simp [hu])]
      exact ⟨List.mem_cons_of_mem u hk, hl⟩
    · rw [if_neg (by simp [hu])]
      exact ⟨hk, hl⟩
  | addKept u hlive =>
    exact ⟨List.mem_cons_of_mem u hk, hl⟩
  | alloc u =>
    refine ⟨hk, ?_⟩
    by_cases ht : t = u <;> simp [ht, hl]
  | collect dead hroots =>
    exact ⟨hk, by simp [hl, hroots t hk]⟩

theorem turnSteps_preserves_keptLive {s1 s2 : GcState}
    (h : TurnSteps s1 s2) {t : ℕ} (hk : t ∈ s1.kept)
    (hl : s1.live t = true) : t ∈ s2.kept ∧ s2.live t = true := by
  induction h with
  | refl => exact ⟨hk, hl⟩
  | step sb sc hsteps hstep ih =>
    exact turnStep_preserves_keptLive hstep ih.1 ih.2

/-- Claim C7: when `deref` returns a non-undefined value, the returned
object is the referent and has been appended to `kept_alive`; after any
sequence of within-turn operations the referent is still in `kept_alive`
and still live, so every later `deref` of the same `WeakRef` in the same
turn returns the same referent (never `undefined`); and the `WeakRef`
constructor likewise appends its target to `kept_alive`. -/
theorem weakref_deref_same_turn (s : GcState) (t r : ℕ)
    (h : (derefOp s t).1 = some r) :
    r = t ∧ t ∈ (derefOp s t).2.kept ∧
      (∀ s2, TurnSteps (derefOp s t).2 s2 →
        (derefOp s2 t).1 = some t ∧ t ∈ (derefOp s2 t).2.kept) ∧
      (∀ s0 : GcState, ∀ u, u ∈ (constructorAddKept s0 u).kept) := by
  have hlive : s.live t = true := by
    by_contra hl
    rw [derefOp, if_neg (by simp [hl])] at h
    cases h
  rw [derefOp, if_pos (by simp [hlive])] at h ⊢
  refine ⟨by simpa using h.symm, List.mem_cons_self t _, ?_, ?_⟩
  · intro s2 hsteps
    have hinv := turnSteps_preserves_keptLive hsteps
      (t := t) (List.mem_cons_self t _) hlive
    rw [derefOp, if_pos (by simp [hinv.2])]
    exact ⟨rfl, List.mem_cons_self t _⟩
  · intro s0 u
    exact List.mem_cons_self u _

theorem weakref_deref_same_turn_witness :
    (derefOp (derefOp { kept := [], live := fun _ => true } 0).2 0).1 =
      some 0 :=
  ((weakref_deref_same_turn { kept := [], live := fun _ => true } 0 0
      rfl).2.2.1
    (derefOp { kept := [], live := fun _ => true } 0).2 (.refl _)).1

/-! ## `MultiLineComment::lex` (claim C8)

The input is the stream of code points after the already-consumed `/*`;
positions are modelled as the number of code points the cursor has
consumed (the source tracks line/column pairs; the claim only speaks of
"the source position reached by the cursor", which advances by one per
consumed code point and by two when `*/` is consumed).
-/

/-- Token kinds produced by the comment lexer (the relevant fragment of
`TokenKind`). -/
inductive TokenKind where
  | comment
  | lineTerminator
deriving DecidableEq

/-- The line terminators recognised by the lexer: CR, LF, U+2028, U+2029. -/
def isLineTerm (c : ℕ) : Bool :=
  c = 0x0D || c = 0x0A || c = 0x2028 || c = 0x2029

/-- Model of the loop of `MultiLineComment::lex`
(`src/core/parser/src/lexer/comment.rs`): consume one code point at a
time; on `*` immediately followed by `/`, consume both and produce a
`LineTerminator` token when a line terminator was seen, else a `Comment`
token; record line terminators; at end of input fail with the position
reached. `nl` is the `new_line` flag, `p` the cursor position. -/
def mlLex : List ℕ → Bool → ℕ → Except ℕ (TokenKind × ℕ)
  | [], _, p => .error p
  | c :: rest, nl, p =>
    if c = 0x2A ∧ rest.head? = some 0x2F then
      .ok (if nl then .lineTerminator else .comment, p + 2)
    else mlLex rest (nl || isLineTerm c) (p + 1)

/-- Model of `MultiLineComment::lex`: the loop starts with a cleared
`new_line` flag at the position after the opening `/*`. -/
def multiLineCommentLex (input : List ℕ) (startPos : ℕ) :
    Except ℕ (TokenKind × ℕ) :=
  mlLex input false startPos

/-- The stream closes the comment at index `k`: a `*` there is immediately
followed by a `/`. -/
def closesAt (l : List ℕ) (k : ℕ) : Prop :=
  l.get? k = some 0x2A ∧ l.get? (k + 1) = some 0x2F

/-- Somewhere in the stream a `*/` closes the comment. -/
def hasClosing (l : List ℕ) : Prop := ∃ k, closesAt l k

/-- Index `k` is the first position where `*/` closes the comment. -/
def firstCloseAt (l : List ℕ) (k : ℕ) : Prop :=
  closesAt l k ∧ ∀ j < k, ¬ closesAt l j

instance (l : List ℕ) (k : ℕ) : Decidable (closesAt l k) := by
  unfold closesAt; infer_instance

instance (l : List ℕ) (k : ℕ) : Decidable (firstCloseAt l k) := by
  unfold firstCloseAt; infer_instance

theorem closesAt_cons_succ {c : ℕ} {rest : List ℕ} {k : ℕ} :
    closesAt (c :: rest) (k + 1) ↔ closesAt rest k := by
  simp [closesAt]

theorem closesAt_cons_zero {c : ℕ} {rest : List ℕ} :
    closesAt (c :: rest) 0 ↔ c = 0x2A ∧ rest.head? = some 0x2F := by
  cases rest <;> simp [closesAt]

theorem mlLex_no_close (l : List ℕ) :
    ∀ nl p, ¬ hasClosing l → mlLex l nl p = .error (p + l.length) := by
  induction l with
  | nil => intro nl p _; simp [mlLex]
  | cons c rest ih =>
    intro nl p hno
    have h0 : ¬ (c = 0x2A ∧ rest.head? = some 0x2F) := by
      intro hc
      exact hno ⟨0, closesAt_cons_zero.mpr hc⟩
    rw [mlLex, if_neg h0]
    have hrest : ¬ hasClosing rest := by
      rintro ⟨k, hk⟩
      exact hno ⟨k + 1, closesAt_cons_succ.mpr hk⟩
    rw [ih (nl || isLineTerm c) (p + 1) hrest]
    have : p + 1 + rest.length = p + (rest.length + 1) := by omega
    simp [this]

theorem mlLex_first_close (l : List ℕ) :
    ∀ nl p k, firstCloseAt l k →
      mlLex l nl p =
        .ok (if nl || (l.take k).any isLineTerm then .lineTerminator
          else .comment, p + k + 2) := by
  induction l with
  | nil =>
    intro nl p k hk
    exact absurd hk.1.1 (by simp)
  | cons c rest ih =>
    intro nl p k hk
    cases k with
    | zero =>
      have hc := closesAt_cons_zero.mp hk.1
      rw [mlLex, if_pos hc]
      simp
    | succ j =>
      have h0 : ¬ (c = 0x2A ∧ rest.head? = some 0x2F) := by
        intro hc
        exact hk.2 0 (Nat.succ_pos j) (closesAt_cons_zero.mpr hc)
      rw [mlLex, if_neg h0]
      have hrest : firstCloseAt rest j := by
        refine ⟨closesAt_cons_succ.mp hk.1, fun i hi hcl => ?_⟩
        exact hk.2 (i + 1) (Nat.succ_lt_succ hi) (closesAt_cons_succ.mpr hcl)
      rw [ih (nl || isLineTerm c) (p + 1) j hrest]
      have hpos : p + 1 + j = p + (j + 1) := by omega
      simp [hpos, Bool.or_assoc]

/-- Claim C8: `MultiLineComment::lex` fails with a syntax error carrying
the position reached by the cursor — the start position plus the whole
remaining stream length — exactly when no `*/` closes the comment; when a
first `*/` closes it at index `k`, it returns a token ending right after
the `*/` whose kind is `LineTerminator` when a line terminator (CR, LF,
U+2028, U+2029) occurred among the code points before the close and
`Comment` otherwise. -/
theorem multiline_comment_lex_characterization (l : List ℕ) (p : ℕ) :
    (¬ hasClosing l → multiLineCommentLex l p = .error (p + l.length)) ∧
      (∀ k, firstCloseAt l k →
        multiLineCommentLex l p =
          .ok (if (l.take k).any isLineTerm then .lineTerminator
            else .comment, p + k + 2)) ∧
      ((∃ e, multiLineCommentLex l p = .error e) ↔ ¬ hasClosing l) := by
  refine ⟨fun h => mlLex_no_close l false p h, fun k hk => ?_, ?_, ?_⟩
  · have := mlLex_first_close l false p k hk
    simpa using this
  · rintro ⟨e, he⟩ hcl
    have hfind : firstCloseAt l (Nat.find hcl) :=
      ⟨Nat.find_spec hcl, fun j hj => Nat.find_min hcl hj⟩
    have := mlLex_first_close l false p (Nat.find hcl) hfind
    rw [multiLineCommentLex] at he
    rw [this] at he
    cases he
  · intro h
    exact ⟨p + l.length, mlLex_no_close l false p h⟩

theorem multiline_comment_lex_characterization_witness :
    multiLineCommentLex [97] 0 = .error (0 + [97].length) ∧
      multiLineCommentLex [0x0A, 0x2A, 0x2F] 5 =
        .ok (if ([0x0A, 0x2A, 0x2F].take 1).any isLineTerm then
          TokenKind.lineTerminator else TokenKind.comment, 5 + 1 + 2) :=
  ⟨(multiline_comment_lex_characterization [97] 0).1 (by
      rintro ⟨k, hk1, hk2⟩
      cases k with
      | zero => simp [List.get?] at hk1
      | succ n => cases n <;> simp [List.get?] at hk2),
    (multiline_comment_lex_characterization [0x0A, 0x2A, 0x2F] 5).2.1 1
      (by decide)⟩

/-! ## `PushDeclarativeEnvironment` operand widths (claim C9)

The three `Operation` entry points of `PushDeclarativeEnvironment`
(`src/boa_engine/src/vm/opcode/push/environment.rs`) differ only in the
width of the immediate they read before calling the shared
`PushDeclarativeEnvironment::operation`. The byte reader
(`Context::vm.read::<T>`) lives in `vm/mod.rs`, which is not under
`src/`; it is modelled from the spec: it reads `size_of::<T>()`
little-endian bytes from the instruction stream and advances the
instruction pointer by exactly that many bytes. Environments pushed by
`push_lexical` are identified with the compile-environment entry they are
built from.
-/

/-- Observable VM state for the modelled opcode: instruction pointer, byte
stream, runtime environment stack, and the frame's
`code_block.compile_environments`. -/
structure VmState where
  ip : ℕ
  code : List ℕ
  envStack : List ℕ
  compileEnvs : List ℕ
deriving DecidableEq

/-- Modelled from the spec: `vm.read::<u8>` — read one byte, advance the
instruction pointer by 1. -/
def readU8 (s : VmState) : Option (ℕ × VmState) :=
  match s.code.get? s.ip with
  | some b0 => some (b0, { s with ip := s.ip + 1 })
  | none => none

/-- Modelled from the spec: `vm.read::<u16>` — read two little-endian
bytes, advance the instruction pointer by 2. -/
def readU16 (s : VmState) : Option (ℕ × VmState) :=
  match s.code.get? s.ip, s.code.get? (s.ip + 1) with
  | some b0, some b1 => some (b0 + 256 * b1, { s with ip := s.ip + 2 })
  | _, _ => none

/-- Modelled from the spec: `vm.read::<u32>` — read four little-endian
bytes, advance the instruction pointer by 4. -/
def readU32 (s : VmState) : Option (ℕ × VmState) :=
  match s.code.get? s.ip, s.code.get? (s.ip + 1), s.code.get? (s.ip + 2),
      s.code.get? (s.ip + 3) with
  | some b0, some b1, some b2, some b3 =>
      some (b0 + 256 * b1 + 65536 * b2 + 16777216 * b3,
        { s with ip := s.ip + 4 })
  | _, _, _, _ => none

/-- Model of `PushDeclarativeEnvironment::operation`
(`src/boa_engine/src/vm/opcode/push/environment.rs`): fetch
`compile_environments[index]` (an out-of-bounds index panics, modelled as
`none`) and push the derived lexical environment. -/
def pushDeclarativeOperation (s : VmState) (idx : ℕ) : Option VmState :=
  match s.compileEnvs.get? idx with
  | some envd => some { s with envStack := envd :: s.envStack }
  | none => none

/-- Model of `PushDeclarativeEnvironment::execute` — the u8-operand
variant. -/
def execPushDeclEnvU8 (s : VmState) : Option VmState :=
  match readU8 s with
  | some (idx, s2) => pushDeclarativeOperation s2 idx
  | none => none

/-- Model of `PushDeclarativeEnvironment::execute_with_u16_operands`. -/
def execPushDeclEnvU16 (s : VmState) : Option VmState :=
  match readU16 s with
  | some (idx, s2) => pushDeclarativeOperation s2 idx
  | none => none

/-- Model of `PushDeclarativeEnvironment::execute_with_u32_operands`. -/
def execPushDeclEnvU32 (s : VmState) : Option VmState :=
  match readU32 s with
  | some (idx, s2) => pushDeclarativeOperation s2 idx
  | none => none

/-- Little-endian u8 encoding of an operand that fits in one byte. -/
def enc8 (n : ℕ) : List ℕ := [n % 256]

/-- Little-endian u16 encoding. -/
def enc16 (n : ℕ) : List ℕ := [n % 256, n / 256 % 256]

/-- Little-endian u32 encoding. -/
def enc32 (n : ℕ) : List ℕ :=
  [n % 256, n / 256 % 256, n / 65536 % 256, n / 16777216 % 256]

theorem get?_append_cons_add (l1 l2 : List ℕ) (j : ℕ) :
    (l1 ++ l2).get? (l1.length + j) = l2.get? j := by
  rw [List.get?_append_right (Nat.le_add_right _ _)]
  simp

/-- Claim C9: the three operand-width variants of
`PushDeclarativeEnvironment` are equivalent — executing each variant at an
instruction pointer whose stream encodes the same index `n` (in the
corresponding width) performs the same operation: it looks up the same
compile environment `n`, pushes the same entry onto the environment
stack (or fails in the same way when `n` is out of bounds), and advances
the instruction pointer by exactly the size of the operand read — 1, 2,
and 4 bytes respectively. -/
theorem push_declarative_environment_width_equiv (n : ℕ)
    (pre p8 p16 p32 envs cenvs : List ℕ) :
    (n < 256 →
      execPushDeclEnvU8 ⟨pre.length, pre ++ enc8 n ++ p8, envs, cenvs⟩ =
        (cenvs.get? n).map fun envd =>
          ⟨pre.length + 1, pre ++ enc8 n ++ p8, envd :: envs, cenvs⟩) ∧
      (n < 65536 →
        execPushDeclEnvU16 ⟨pre.length, pre ++ enc16 n ++ p16, envs, cenvs⟩ =
          (cenvs.get? n).map fun envd =>
            ⟨pre.length + 2, pre ++ enc16 n ++ p16, envd :: envs, cenvs⟩) ∧
      (n < 4294967296 →
        execPushDeclEnvU32 ⟨pre.length, pre ++ enc32 n ++ p32, envs, cenvs⟩ =
          (cenvs.get? n).map fun envd =>
            ⟨pre.length + 4, pre ++ enc32 n ++ p32, envd :: envs, cenvs⟩) := by
  refine ⟨fun h8 => ?_, fun h16 => ?_, fun h32 => ?_⟩
  · have hmod : n % 256 = n := Nat.mod_eq_of_lt h8
    have g0 : (pre ++ enc8 n ++ p8).get? pre.length = some (n % 256) := by
      have := get?_append_cons_add pre (enc8 n ++ p8) 0
      simpa [enc8] using this
    rw [execPushDeclEnvU8, readU8]
    simp only [g0]
    rw [pushDeclarativeOperation]
    cases hc : cenvs[n]? with
    | none => simp [hmod, hc]
    | some envd => simp [hmod, hc]
  · have g0 : (pre ++ enc16 n ++ p16).get? pre.length = some (n % 256) := by
      have := get?_append_cons_add pre (enc16 n ++ p16) 0
      simpa [enc16] using this
    have g1 : (pre ++ enc16 n ++ p16).get? (pre.length + 1) =
        some (n / 256 % 256) := by
      have := get?_append_cons_add pre (enc16 n ++ p16) 1
      simpa [enc16] using this
    have hval : n % 256 + 256 * (n / 256 % 256) = n := by omega
    rw [execPushDeclEnvU16, readU16]
    simp only [g0, g1]
    rw [pushDeclarativeOperation]
    cases hc : cenvs[n]? with
    | none => simp [hval, hc]
    | some envd => simp [hval, hc]
  · have g0 : (pre ++ enc32 n ++ p32).get? pre.length = some (n % 256) := by
      have := get?_append_cons_add pre (enc32 n ++ p32) 0
      simpa [enc32] using this
    have g1 : (pre ++ enc32 n ++ p32).get? (pre.length + 1) =
        some (n / 256 % 256) := by
      have := get?_append_cons_add pre (enc32 n ++ p32) 1
      simpa [enc32] using this
    have g2 : (pre ++ enc32 n ++ p32).get? (pre.length + 2) =
        some (n / 65536 % 256) := by
      have := get?_append_cons_add pre (enc32 n ++ p32) 2
      simpa [enc32] using this
    have g3 : (pre ++ enc32 n ++ p32).get? (pre.length + 3) =
        some (n / 16777216 % 256) := by
      have := get?_append_cons_add pre (enc32 n ++ p32) 3
      simpa [enc32] using this
    have hval : n % 256 + 256 * (n / 256 % 256) + 65536 * (n / 65536 % 256) +
        16777216 * (n / 16777216 % 256) = n := by omega
    rw [execPushDeclEnvU32, readU32]
    simp only [g0, g1, g2, g3]
    rw [pushDeclarativeOperation]
    cases hc : cenvs[n]? with
    | none => simp [hval, hc]
    | some envd => simp [hval, hc]

theorem push_declarative_environment_width_equiv_witness :
    execPushDeclEnvU8 ⟨0, [7], [], [10, 11, 12, 13, 14, 15, 16, 17]⟩ =
      some ⟨1, [7], [17], [10, 11, 12, 13, 14, 15, 16, 17]⟩ ∧
      execPushDeclEnvU32 ⟨0, [7, 0, 0, 0], [],
          [10, 11, 12, 13, 14, 15, 16, 17]⟩ =
        some ⟨4, [7, 0, 0, 0], [17], [10, 11, 12, 13, 14, 15, 16, 17]⟩ := by
  have h := push_declarative_environment_width_equiv 7 [] [] []
    [] [] [10, 11, 12, 13, 14, 15, 16, 17]
  refine ⟨?_, ?_⟩
  · have h8 := h.1 (by decide)
    simpa [enc8] using h8
  · have h32 := h.2.2 (by decide)
    simpa [enc32] using h32

end Boa
